import Mathlib

/-!
Verification development for the RePath reference-rewriting engine.

Text is modelled as `List Char`; the TypeScript source's string operations
(`includes`, `replaceAll`, line splitting, the fixed regular expressions)
are embedded as executable functions on character lists below.  Each
definition is annotated with the source function it embeds.
-/

/-- Character list of a string literal. -/
def str (s : String) : List Char := s.data

/-- JavaScript `\s` whitespace class, restricted to the code points that can
appear in this code base (the exotic Unicode space separators beyond NBSP,
LS, PS and BOM are omitted; none of the embedded scanners ever distinguishes
them from ordinary text). -/
def jsSpaceB (c : Char) : Bool :=
  c.toNat = 32 || c.toNat = 9 || c.toNat = 10 || c.toNat = 13 ||
  c.toNat = 11 || c.toNat = 12 || c.toNat = 160 ||
  c.toNat = 0x2028 || c.toNat = 0x2029 || c.toNat = 0xfeff

/-- JavaScript regex line terminators (the code points `.` does not match). -/
def isLineTermB (c : Char) : Bool :=
  c.toNat = 10 || c.toNat = 13 || c.toNat = 0x2028 || c.toNat = 0x2029

/-- First character class of the identifier pattern `[a-zA-Z_]`. -/
def isIdentStartB (c : Char) : Bool :=
  (97 ≤ c.toNat && c.toNat ≤ 122) || (65 ≤ c.toNat && c.toNat ≤ 90) || c.toNat = 95

/-- The `\w` class `[a-zA-Z0-9_]`. -/
def isIdentCharB (c : Char) : Bool :=
  isIdentStartB c || (48 ≤ c.toNat && c.toNat ≤ 57)

/-- JavaScript `String.prototype.includes`: substring occurrence test. -/
def occursIn (pat : List Char) : List Char → Bool
  | [] => pat.isEmpty
  | s@(_ :: rest) => pat.isPrefixOf s || occursIn pat rest

/-- Fuelled worker for `replaceAll`.  Each step consumes at least one
character of the text, so fuel equal to the text length is always enough. -/
def replaceAllFuel (pat rep : List Char) : Nat → List Char → List Char
  | 0, text => text
  | _ + 1, [] => []
  | fuel + 1, c :: rest =>
    if pat ≠ [] ∧ pat.isPrefixOf (c :: rest) then
      rep ++ replaceAllFuel pat rep fuel ((c :: rest).drop pat.length)
    else
      c :: replaceAllFuel pat rep fuel rest

/-- JavaScript `String.prototype.replaceAll`: replaces every non-overlapping
occurrence of `pat`, scanning left to right.  Every call site in the source
passes a non-empty pattern (alias names are non-empty and logical paths start
with the anchor literal), so the empty-pattern behaviour is irrelevant. -/
def replaceAll (pat rep text : List Char) : List Char :=
  replaceAllFuel pat rep text.length text

/-- Strip a literal from the front of a list, or fail. -/
def stripLit (lit s : List Char) : Option (List Char) :=
  if lit.isPrefixOf s then some (s.drop lit.length) else none

/-- JavaScript `value.split("--")[0]`: the part before the first occurrence. -/
def takeBefore (pat : List Char) : List Char → List Char
  | [] => []
  | c :: rest => if pat.isPrefixOf (c :: rest) then [] else c :: takeBefore pat rest

/-- JavaScript `String.prototype.trim`. -/
def trimJs (l : List Char) : List Char :=
  ((l.dropWhile jsSpaceB).reverse.dropWhile jsSpaceB).reverse

/-- Split on a single separator character (JavaScript `split('.')` /
`split('/')`): never returns an empty list, keeps empty fields. -/
def splitSepAux (sep : Char) : List Char → List Char → List (List Char)
  | [], acc => [acc.reverse]
  | c :: rest, acc =>
    if c = sep then acc.reverse :: splitSepAux sep rest []
    else splitSepAux sep rest (c :: acc)

def splitSep (sep : Char) (s : List Char) : List (List Char) :=
  splitSepAux sep s []

/-- JavaScript `Array.prototype.join` with a one-character separator. -/
def joinSep (sep : Char) : List (List Char) → List Char
  | [] => []
  | [x] => x
  | x :: y :: rest => x ++ sep :: joinSep sep (y :: rest)

def joinDots : List (List Char) → List Char := joinSep '.'

/-- `text.split(/\r?\n/)` from `parseVariablesToAbsoluteMap`. -/
def splitLinesAux : List Char → List Char → List (List Char)
  | [], acc => [acc.reverse]
  | '\r' :: '\n' :: rest, acc => acc.reverse :: splitLinesAux rest []
  | '\n' :: rest, acc => acc.reverse :: splitLinesAux rest []
  | c :: rest, acc => splitLinesAux rest (c :: acc)

def splitLines (text : List Char) : List (List Char) :=
  splitLinesAux text []

/-- Insertion-order-preserving map update (`Map.prototype.set`): an existing
key keeps its position and gets the new value, a new key is appended. -/
def setA (m : List (List Char × List Char)) (k v : List Char) :
    List (List Char × List Char) :=
  match m with
  | [] => [(k, v)]
  | (k', v') :: rest => if k' = k then (k', v) :: rest else (k', v') :: setA rest k v

/-- `Map.prototype.get` / `Map.prototype.has`. -/
def lookupA (m : List (List Char × List Char)) (k : List Char) : Option (List Char) :=
  match m with
  | [] => none
  | (k', v') :: rest => if k' = k then some v' else lookupA rest k

/-- The canonical anchor literal `game:GetService("name")`. -/
def serviceLit (name : List Char) : List Char :=
  str "game:GetService(\"" ++ name ++ str "\")"

/-- The anchor-access grammar `/^game:GetService\("([^"]+)"\)(.*)$/` used by
`applyRefactorOnText` and `parseVariablesToAbsoluteMap`.  `[^"]+` is the
maximal non-empty run of non-quote characters; `(.*)$` requires the remainder
to contain no line terminator and reach the end of the string. -/
def parseServicePath (p : List Char) : Option (List Char × List Char) :=
  match stripLit (str "game:GetService(\"") p with
  | none => none
  | some r =>
    let name := r.takeWhile (fun c => c ≠ '"')
    match r.dropWhile (fun c => c ≠ '"') with
    | '"' :: ')' :: suffix =>
      if name.isEmpty then none
      else if suffix.all (fun c => !isLineTermB c) then some (name, suffix)
      else none
    | _ => none

/-- One anchored attempt of the alias-declaration regex
`local\s+([a-zA-Z_]\w*)\s*=\s*game:GetService\("NAME"\)` at the head of `s`.
`NAME` is interpolated into the regex verbatim by the source; this model
matches it literally, which coincides with the regex for names free of regex
metacharacters (the anchors produced by the path resolver and by the anchor
grammar in every theorem below). -/
def matchDecl (name s : List Char) : Option (List Char) :=
  match stripLit (str "local") s with
  | none => none
  | some r =>
    if (r.takeWhile jsSpaceB).isEmpty then none
    else
      let r2 := r.dropWhile jsSpaceB
      match r2 with
      | [] => none
      | c :: _ =>
        if isIdentStartB c then
          let ident := r2.takeWhile isIdentCharB
          let r3 := (r2.dropWhile isIdentCharB).dropWhile jsSpaceB
          match r3 with
          | '=' :: r4 =>
            if (serviceLit name).isPrefixOf (r4.dropWhile jsSpaceB) then some ident
            else none
          | _ => none
        else none

/-- `RegExp.prototype.exec` of the alias-declaration regex: the first match
position in the text, scanning left to right, returning the captured
variable name. -/
def findVariable (name : List Char) : List Char → Option (List Char)
  | [] => none
  | s@(_ :: rest) =>
    match matchDecl name s with
    | some v => some v
    | none => findVariable name rest

/-- A well-formed alias declaration line, as emitted in test fixtures:
`local v = game:GetService("a")`. -/
def declLocal (v a : List Char) : List Char :=
  str "local " ++ v ++ str " = " ++ serviceLit a

/-- `v` is a non-empty identifier of the shape `[a-zA-Z_]\w*`. -/
def validIdent : List Char → Bool
  | [] => false
  | c :: cs => isIdentStartB c && (c :: cs).all isIdentCharB

/-- Lines 183–226 of the rewriter (`applyRefactorOnText` after the two paths
have been decomposed): the primary alias-aware replacement pass.  `old` and
`new` are the full logical path strings; `oldName`/`oldSuf` and
`newName`/`newSuf` their grammar decompositions. -/
def primaryRewrite (text old oldName oldSuf newName newSuf : List Char) : List Char :=
  let oldVar := findVariable oldName text
  let newVar := findVariable newName text
  match oldVar with
  | some v =>
    if occursIn (v ++ oldSuf) text then
      -- Case 1: alias-qualified form present
      if newVar = some v then replaceAll (v ++ oldSuf) (v ++ newSuf) text
      else
        match newVar with
        | some w => replaceAll (v ++ oldSuf) (w ++ newSuf) text
        | none => replaceAll (v ++ oldSuf) (serviceLit newName ++ newSuf) text
    else if occursIn old text then
      -- Case 2: fully-qualified form present
      if newVar = some v then replaceAll old (v ++ newSuf) text
      else
        match newVar with
        | some w => replaceAll old (w ++ newSuf) text
        | none => replaceAll old (serviceLit newName ++ newSuf) text
    else text
  | none =>
    if occursIn old text then
      match newVar with
      | some w => replaceAll old (w ++ newSuf) text
      | none => replaceAll old (serviceLit newName ++ newSuf) text
    else text

/-- The assignment regex `^\s*local\s+([a-zA-Z_]\w*)\s*=\s*(.+)` of
`parseVariablesToAbsoluteMap`, applied to one line.  The captured value is
the maximal run of non-line-terminator characters after the equals sign and
its surrounding whitespace.  (When only whitespace follows `=`, the regex
technically captures a last whitespace character by backtracking; it then
trims to the empty string and binds nothing, so returning `none` here yields
the same map.) -/
def matchAssign (line : List Char) : Option (List Char × List Char) :=
  match stripLit (str "local") (line.dropWhile jsSpaceB) with
  | none => none
  | some r =>
    if (r.takeWhile jsSpaceB).isEmpty then none
    else
      let r2 := r.dropWhile jsSpaceB
      match r2 with
      | [] => none
      | c :: _ =>
        if isIdentStartB c then
          let ident := r2.takeWhile isIdentCharB
          let r3 := (r2.dropWhile isIdentCharB).dropWhile jsSpaceB
          match r3 with
          | '=' :: r4 =>
            let rawValue := (r4.dropWhile jsSpaceB).takeWhile (fun c => !isLineTermB c)
            if rawValue.isEmpty then none else some (ident, rawValue)
          | _ => none
        else none

/-- Comment / semicolon cleanup applied to a captured assignment value. -/
def cleanupValue (raw : List Char) : List Char :=
  let r1 := if occursIn (str "--") raw then takeBefore (str "--") raw else raw
  let r2 := trimJs r1
  if r2.getLast? = some ';' then trimJs r2.dropLast else r2

/-- One line of `parseVariablesToAbsoluteMap`: case A binds a direct anchor
expression verbatim; case B substitutes one already-known alias; everything
else binds nothing. -/
def varStep (m : List (List Char × List Char)) (line : List Char) :
    List (List Char × List Char) :=
  match matchAssign line with
  | none => m
  | some (varName, rawValue) =>
    let v := cleanupValue rawValue
    if (parseServicePath v).isSome then setA m varName v
    else
      match splitSep '.' v with
      | [] => m
      | p0 :: restParts =>
        match lookupA m p0 with
        | none => m
        | some base =>
          let rest := joinDots restParts
          let final := if rest.isEmpty then base else base ++ '.' :: rest
          setA m varName final

/-- `parseVariablesToAbsoluteMap`: scan the file line by line, building the
alias map in insertion order. -/
def parseVariablesToAbsoluteMap (text : List Char) : List (List Char × List Char) :=
  (splitLines text).foldl varStep []

/-- The `LongestVariable` record of the source (`variable` is a Lean keyword,
so the field is named `varName`). -/
structure LongestVariable where
  varName : List Char
  longestSnippetCount : Nat
  suffix : List Char
deriving DecidableEq

/-- The two prefix-comparison loops of `applyNestedRefactoring`: walk the
path segments `ps`, counting matches against the alias segments `vs`; on the
first mismatch record the unmatched tail of `ps` (the loop's `break`), and
record nothing when the loop runs to completion. -/
def segScan : List (List Char) → List (List Char) → Nat × Option (List Char)
  | _, [] => (0, none)
  | [], ps => (0, some (joinDots ps))
  | v :: vrest, p :: prest =>
    if v = p then
      let r := segScan vrest prest
      (r.1 + 1, r.2)
    else (0, some (joinDots (p :: prest)))

/-- The body of the `variableMap.forEach` loop in `applyNestedRefactoring`.
The source reuses one mutable `suffix` variable across both comparison
loops: when the old-path loop never breaks (every old-path segment matched),
the recorded suffix is whatever the new-path loop left behind — this is the
`o.2.getD suffix1` below. -/
def nestedStep (newSegs oldSegs : List (List Char))
    (acc : LongestVariable × List LongestVariable)
    (entry : List Char × List Char) : LongestVariable × List LongestVariable :=
  let varSegs := splitSep '.' entry.2
  let n := segScan varSegs newSegs
  let suffix1 := n.2.getD []
  let big := if n.1 > acc.1.longestSnippetCount then
      ⟨entry.1, n.1, suffix1⟩ else acc.1
  let o := segScan varSegs oldSegs
  let suffix2 := o.2.getD suffix1
  (big, acc.2 ++ [⟨entry.1, o.1, suffix2⟩])

/-- `variable + (variable == "" || suffix == "" ? "" : ".") + suffix`. -/
def joinVar (v s : List Char) : List Char :=
  v ++ (if v = [] ∨ s = [] then [] else ['.']) ++ s

/-- Stable insertion into a descending-count list (the ES2019+ stable
`Array.prototype.sort` with comparator `b.count - a.count`). -/
def insertDesc (x : LongestVariable) : List LongestVariable → List LongestVariable
  | [] => [x]
  | y :: ys =>
    if x.longestSnippetCount ≤ y.longestSnippetCount then y :: insertDesc x ys
    else x :: y :: ys

def sortDesc (l : List LongestVariable) : List LongestVariable :=
  l.foldl (fun acc x => insertDesc x acc) []

/-- The scan phase of `applyNestedRefactoring`: the best new-form alias and
the list of old-path candidates, in map insertion order. -/
def nestedScan (text old new : List Char) : LongestVariable × List LongestVariable :=
  (parseVariablesToAbsoluteMap text).foldl
    (nestedStep (splitSep '.' new) (splitSep '.' old)) (⟨[], 0, new⟩, [])

/-- `applyNestedRefactoring` (lines 234–330 of the source). -/
def applyNestedRefactoring (text old new : List Char) : List Char :=
  if (parseVariablesToAbsoluteMap text).isEmpty then text
  else
    let scans := nestedScan text old new
    let calculatedNewPath := joinVar scans.1.varName scans.1.suffix
    (sortDesc scans.2).foldl
      (fun t c =>
        let pathLit := joinVar c.varName c.suffix
        if occursIn pathLit t then replaceAll pathLit calculatedNewPath t else t)
      text

/-- The literal textual forms the nested pass searches for, in the order it
tries them. -/
def nestedLiterals (text old new : List Char) : List (List Char) :=
  if (parseVariablesToAbsoluteMap text).isEmpty then []
  else (sortDesc (nestedScan text old new).2).map (fun c => joinVar c.varName c.suffix)

/-- `applyRefactorOnText` (lines 167–232): decompose both paths via the
anchor grammar (silently returning the text unchanged when either fails),
run the primary rewrite, then the nested pass. -/
def applyRefactorOnText (text old new : List Char) : List Char :=
  match parseServicePath old, parseServicePath new with
  | some po, some pn =>
    applyNestedRefactoring (primaryRewrite text old po.1 po.2 pn.1 pn.2) old new
  | _, _ => text

/-- The replacement the spec's three-way policy produces, given the alias
lookup for the new anchor (its first two branches — reuse the old alias when
it coincides with the new one, else adopt the distinct new alias — write the
same string `alias + newSuffix`, so they are merged here). -/
def claimedReplacement (newVar : Option (List Char)) (newName newSuf : List Char) :
    List Char :=
  match newVar with
  | some w => w ++ newSuf
  | none => serviceLit newName ++ newSuf

/-- The old path's literal forms that a further rewrite pass would search
for in `text`: the alias-qualified old form, the fully-qualified old path,
and the nested pass's candidate literals. -/
def residualOldForms (text old new : List Char) : List (List Char) :=
  match parseServicePath old, parseServicePath new with
  | some po, some _ =>
    (match findVariable po.1 text with
     | some v => [v ++ po.2]
     | none => []) ++ [old] ++ nestedLiterals text old new
  | _, _ => []

/-- Claim-side variant of `nestedStep`, following the spec's words: the
candidate records the unmatched tail of the OLD path (empty when every
old-path segment matched), independent of the new-path comparison.  Used
only to compare the spec's description with the source behaviour. -/
def nestedStepSpec (newSegs oldSegs : List (List Char))
    (acc : LongestVariable × List LongestVariable)
    (entry : List Char × List Char) : LongestVariable × List LongestVariable :=
  let varSegs := splitSep '.' entry.2
  let n := segScan varSegs newSegs
  let suffix1 := n.2.getD []
  let big := if n.1 > acc.1.longestSnippetCount then
      ⟨entry.1, n.1, suffix1⟩ else acc.1
  let o := segScan varSegs oldSegs
  let suffix2 := o.2.getD []
  (big, acc.2 ++ [⟨entry.1, o.1, suffix2⟩])

/-- The nested pass exactly as the spec describes it (differs from
`applyNestedRefactoring` only in `nestedStepSpec`). -/
def applyNestedRefactoringSpec (text old new : List Char) : List Char :=
  if (parseVariablesToAbsoluteMap text).isEmpty then text
  else
    let scans := (parseVariablesToAbsoluteMap text).foldl
      (nestedStepSpec (splitSep '.' new) (splitSep '.' old)) (⟨[], 0, new⟩, [])
    let calculatedNewPath := joinVar scans.1.varName scans.1.suffix
    (sortDesc scans.2).foldl
      (fun t c =>
        let pathLit := joinVar c.varName c.suffix
        if occursIn pathLit t then replaceAll pathLit calculatedNewPath t else t)
      text

/-! ## Path resolver (`IgnoreManager.ts` / `PathResolver`): `convertToRobloxPath` -/

/-- Node `path.posix.basename`: the last run of non-slash characters,
ignoring trailing slashes; empty when there is none. -/
def basenameP (p : List Char) : List Char :=
  ((p.reverse.dropWhile (fun c => c = '/')).takeWhile (fun c => c ≠ '/')).reverse

/-- Node `path.posix.dirname`. -/
def dirnameP (p : List Char) : List Char :=
  match p with
  | [] => str "."
  | p0 :: _ =>
    let hasRoot := p0 = '/'
    let r := p.reverse.take (p.length - 1)
    let s2 := (r.dropWhile (fun c => c = '/')).dropWhile (fun c => c ≠ '/')
    match s2 with
    | [] => if hasRoot then str "/" else str "."
    | _ :: t =>
      if hasRoot ∧ t = [] then str "//"
      else p0 :: t.reverse

/-- Split a name at its last occurrence of `c`:
`some (before, after)` or `none` when `c` does not occur. -/
def splitLast (c : Char) (m : List Char) : Option (List Char × List Char) :=
  let r := m.reverse
  match r.dropWhile (fun x => x ≠ c) with
  | [] => none
  | _ :: t => some (t.reverse, (r.takeWhile (fun x => x ≠ c)).reverse)

def lowerStr (l : List Char) : List Char := l.map Char.toLower

/-- Module-name extraction (lines 159–173): drop a `lua`/`luau` extension,
then a `server`/`client`/`shared` environment suffix, both case-insensitive. -/
def extractModuleName (filename : List Char) : List Char :=
  match splitLast '.' filename with
  | none => filename
  | some (before, after) =>
    if lowerStr after = str "lua" ∨ lowerStr after = str "luau" then
      match splitLast '.' before with
      | none => before
      | some (b2, a2) =>
        if lowerStr a2 = str "server" ∨ lowerStr a2 = str "client" ∨
            lowerStr a2 = str "shared" then b2
        else before
    else filename

/-- `moduleName.toLowerCase().startsWith('init')`. -/
def isInitName (m : List Char) : Bool :=
  (str "init").isPrefixOf (lowerStr m)

/-- `formatRobloxName`: bracket-quote names containing a space. -/
def formatRobloxName (name : List Char) : List Char :=
  if name.contains ' ' then '[' :: '"' :: (name ++ str "\"]") else name

/-- One appended path segment: bracket-quoted names concatenate directly,
everything else gets a leading dot (the `formatted.startsWith('[')` test). -/
def appendSeg (acc part : List Char) : List Char :=
  let f := formatRobloxName part
  match f with
  | '[' :: _ => acc ++ f
  | _ => acc ++ '.' :: f

/-- Append the module-name segment unless it denotes an init file.  The
source repeats this logic verbatim in the tree branch (lines 227–234) and
the fallback branch (lines 266–277). -/
def appendModule (acc m : List Char) : List Char :=
  if isInitName m then acc else appendSeg acc m

/-- `dir.split('/').filter(part => part && part !== '.')`. -/
def splitParts (dir : List Char) : List (List Char) :=
  (splitSep '/' dir).filter (fun s => s ≠ [] ∧ s ≠ str ".")

/-- Drop a leading conventional `src` directory (fallback branch only). -/
def shiftSrc (parts : List (List Char)) : List (List Char) :=
  match parts with
  | p :: rest => if p = str "src" then rest else p :: rest
  | [] => []

/-- The fallback loop over directory parts: the first becomes the anchor,
the rest are appended segments. -/
def buildFromParts : List (List Char) → List Char
  | [] => str "game"
  | d :: rest => rest.foldl appendSeg (serviceLit d)

/-- The Rojo hierarchy tree: each node may bind a `$path` and has named
children (entries whose key starts with `$`, and non-object entries, are
skipped by the traversal, so only tree-valued children are modelled). -/
inductive PTree where
  | node : Option (List Char) → List (List Char × PTree) → PTree

mutual

/-- `findPathInTree`: depth-first search for a node whose `$path` equals the
target, returning the key path to it. -/
def findPathInTree : PTree → List Char → List (List Char) → Option (List (List Char))
  | .node pa children, target, current =>
    if pa = some target then some current
    else findInChildren children target current

def findInChildren : List (List Char × PTree) → List Char → List (List Char) →
    Option (List (List Char))
  | [], _, _ => none
  | (k, child) :: rest, target, current =>
    match k with
    | '$' :: _ => findInChildren rest target current
    | _ =>
      match findPathInTree child target (current ++ [k]) with
      | some r => some r
      | none => findInChildren rest target current

end

/-- The longest-prefix search loop (lines 190–200): test
`dirParts.slice(0, i).join('/')` for `i = dirParts.length` down to `0`,
stopping at the first hit. -/
def searchTreeAux (t : PTree) (dirParts : List (List Char)) :
    Nat → Option (List (List Char) × List (List Char))
  | 0 =>
    match findPathInTree t (joinSep '/' (dirParts.take 0)) [] with
    | some tp => some (tp, dirParts.drop 0)
    | none => none
  | i + 1 =>
    match findPathInTree t (joinSep '/' (dirParts.take (i + 1))) [] with
    | some tp => some (tp, dirParts.drop (i + 1))
    | none => searchTreeAux t dirParts i

def searchTree (t : PTree) (dirParts : List (List Char)) :
    Option (List (List Char) × List (List Char)) :=
  searchTreeAux t dirParts dirParts.length

/-- The directory-only logical path: the tree branch when a non-empty tree
path matched, the fallback otherwise.  Depends on the input only through its
directory. -/
def convertBase (dir : List Char) (tree : Option PTree) : List Char :=
  let fallback := buildFromParts (shiftSrc (splitParts dir))
  match tree with
  | some t =>
    match searchTree t (splitParts dir) with
    | some (matched, remaining) =>
      match matched with
      | [] => fallback
      | m0 :: mrest => remaining.foldl appendSeg (mrest.foldl appendSeg (serviceLit m0))
    | none => fallback
  | none => fallback

/-- `convertToRobloxPath` (lines 154–281): directory-based base path plus the
module-name segment, the latter omitted for init-prefixed names.  The
optional hierarchy tree stands for the parsed `*.project.json` document;
`none` models both an absent workspace and an absent or malformed document. -/
def convertToRobloxPath (p : List Char) (tree : Option PTree) : List Char :=
  appendModule (convertBase (dirnameP p) tree) (extractModuleName (basenameP p))

/-! ## Ignore handling (`IgnoreManager.getIgnore`) -/

/-- The two built-in default exclusions. -/
def defaultIgnorePatterns : List (List Char) := [str ".git", str "node_modules"]

/-- `getIgnore`: the default patterns, plus the ignore document's lines when
it exists and is readable (`doc = some text`); reading never fails to the
caller.  The glob evaluator itself lives in the external `ignore` package. -/
def getIgnore (doc : Option (List Char)) : List (List Char) :=
  match doc with
  | some text => defaultIgnorePatterns ++ splitLines text
  | none => defaultIgnorePatterns

/-- Modelled from the spec: the external ignore collaborator is "an opaque
predicate over normalized relative paths (glob-pattern based)"; a slash-free
pattern such as the two defaults excludes any path one of whose segments
equals it. -/
def ignoresPath (patterns : List (List Char)) (p : List Char) : Bool :=
  patterns.any (fun pat => (splitSep '/' p).any (fun seg => seg = pat))

/-! ## General lemmas -/

theorem occursIn_cons_false {c : Char} {rest : List Char} {p : List Char}
    (h : occursIn p (c :: rest) = false) :
    p.isPrefixOf (c :: rest) = false ∧ occursIn p rest = false := by
  simpa [occursIn] using h

theorem replaceAllFuel_of_not_occurs {pat rep : List Char} :
    ∀ (fuel : Nat) (text : List Char), occursIn pat text = false →
      replaceAllFuel pat rep fuel text = text := by
  intro fuel
  induction fuel with
  | zero => intro text _; rfl
  | succ n ih =>
    intro text h
    cases text with
    | nil => rfl
    | cons c rest =>
      have h2 := occursIn_cons_false h
      rw [replaceAllFuel, if_neg, ih rest h2.2]
      rintro ⟨-, hp⟩
      rw [h2.1] at hp
      exact Bool.false_ne_true hp

theorem replaceAll_of_not_occurs {pat rep text : List Char}
    (h : occursIn pat text = false) : replaceAll pat rep text = text :=
  replaceAllFuel_of_not_occurs _ _ h

theorem primaryRewrite_noop {text old oldName oldSuf newName newSuf : List Char}
    (hA : ∀ v, findVariable oldName text = some v → occursIn (v ++ oldSuf) text = false)
    (hF : occursIn old text = false) :
    primaryRewrite text old oldName oldSuf newName newSuf = text := by
  unfold primaryRewrite
  cases hv : findVariable oldName text with
  | none => simp [hF]
  | some v => simp [hA v hv, hF]

theorem foldl_replace_noop (cn : List Char) :
    ∀ (l : List LongestVariable) (t : List Char),
      (∀ c ∈ l, occursIn (joinVar c.varName c.suffix) t = false) →
      l.foldl (fun t c =>
        let pathLit := joinVar c.varName c.suffix
        if occursIn pathLit t then replaceAll pathLit cn t else t) t = t := by
  intro l
  induction l with
  | nil => intro t _; rfl
  | cons c cs ih =>
    intro t h
    have hc := h c (List.mem_cons_self c cs)
    simp only [List.foldl_cons, hc, Bool.false_eq_true, if_false]
    exact ih t (fun x hx => h x (List.mem_cons_of_mem c hx))

theorem applyNested_noop {text old new : List Char}
    (h : ∀ s ∈ nestedLiterals text old new, occursIn s text = false) :
    applyNestedRefactoring text old new = text := by
  unfold applyNestedRefactoring
  unfold nestedLiterals at h
  by_cases he : (parseVariablesToAbsoluteMap text).isEmpty
  · simp [he]
  · simp only [he, Bool.false_eq_true, if_false] at h ⊢
    exact foldl_replace_noop _ _ _ (fun c hc =>
      h (joinVar c.varName c.suffix) (List.mem_map_of_mem _ hc))

/-! ## Claim theorems: easy cases first -/

/-- Claim C6: when either logical path fails the anchor-access grammar,
`applyRefactorOnText` returns its input text completely unchanged, nested
pass included. -/
theorem claim6_unresolvable_noop (text old new : List Char)
    (h : parseServicePath old = none ∨ parseServicePath new = none) :
    applyRefactorOnText text old new = text := by
  unfold applyRefactorOnText
  rcases h with h | h
  · simp [h]
  · cases hpo : parseServicePath old <;> simp [hpo, h]

theorem claim6_witness :
    applyRefactorOnText (str "return 1") (str "not a path") (str "game:GetService(\"S\").M")
      = str "return 1" :=
  claim6_unresolvable_noop _ _ _ (Or.inl (by decide))

/-- Claim C5 (corrected): resolving `src/ServerScriptService/init.server.lua`
or the `.luau` variant yields the directory-only logical path
`game:GetService("ServerScriptService")` — the module-name segment is omitted
entirely — but this is NOT equal to resolving the bare directory string
`src/ServerScriptService`, which treats its last component as a module name
and yields `game.ServerScriptService`. -/
theorem claim5_init_suppression :
    convertToRobloxPath (str "src/ServerScriptService/init.server.lua") none
        = serviceLit (str "ServerScriptService")
    ∧ convertToRobloxPath (str "src/ServerScriptService/init.server.luau") none
        = serviceLit (str "ServerScriptService")
    ∧ convertToRobloxPath (str "src/ServerScriptService") none
        = str "game.ServerScriptService" := by
  refine ⟨by decide, by decide, by decide⟩

/-- Claim C5 counterexample: the two resolutions the claim equates are
different strings. -/
theorem claim5_counterexample :
    convertToRobloxPath (str "src/ServerScriptService/init.server.lua") none
      ≠ convertToRobloxPath (str "src/ServerScriptService") none := by decide

/-- Claim C8: with no readable ignore document, the ignore predicate is
exactly the union of the two built-in default exclusions (`.git` and
`node_modules`) and nothing else; the fallback is a value, not an error. -/
theorem claim8_default_ignore :
    getIgnore none = defaultIgnorePatterns ∧
    ∀ p : List Char, ignoresPath (getIgnore none) p =
      (ignoresPath [str ".git"] p || ignoresPath [str "node_modules"] p) := by
  refine ⟨rfl, fun p => ?_⟩
  simp [getIgnore, ignoresPath, defaultIgnorePatterns]

/-! ## Claim C1: idempotence of the rewrite -/

/-- Claim C1 counterexample: when the new path extends the old path, the
first pass leaves text that still contains the old path literally, and a
second pass rewrites it again — `require(game:GetService("S").M)` becomes
`...M.X` and then `...M.X.X`, so the rewrite is not idempotent for all
inputs. -/
theorem claim1_counterexample :
    applyRefactorOnText
        (applyRefactorOnText (str "require(game:GetService(\"S\").M)")
          (str "game:GetService(\"S\").M") (str "game:GetService(\"S\").M.X"))
        (str "game:GetService(\"S\").M") (str "game:GetService(\"S\").M.X")
      ≠ applyRefactorOnText (str "require(game:GetService(\"S\").M)")
          (str "game:GetService(\"S\").M") (str "game:GetService(\"S\").M.X") := by
  decide

/-- Claim C1 (amended): a second pass is a no-op exactly when the first
pass's output is free of the old path's literal forms — the alias-qualified
old form, the fully-qualified old path, and the nested pass's candidate
literals.  (The unconditional claim fails: a first pass need not remove all
old-path occurrences, e.g. when the new path extends the old one.) -/
theorem claim1_second_pass_noop (t old new : List Char)
    (h : ∀ s ∈ residualOldForms (applyRefactorOnText t old new) old new,
      occursIn s (applyRefactorOnText t old new) = false) :
    applyRefactorOnText (applyRefactorOnText t old new) old new
      = applyRefactorOnText t old new := by
  set t' := applyRefactorOnText t old new with ht'
  clear_value t'
  cases hpo : parseServicePath old with
  | none => simp [applyRefactorOnText, hpo]
  | some po =>
    obtain ⟨oldName, oldSuf⟩ := po
    cases hpn : parseServicePath new with
    | none => simp [applyRefactorOnText, hpo, hpn]
    | some pn =>
      obtain ⟨newName, newSuf⟩ := pn
      simp only [residualOldForms, hpo, hpn] at h
      have h1 : primaryRewrite t' old oldName oldSuf newName newSuf = t' := by
        apply primaryRewrite_noop
        · intro v hv
          apply h
          simp [hv]
        · apply h
          simp
      have h2 : applyNestedRefactoring t' old new = t' := by
        apply applyNested_noop
        intro s hs
        apply h
        simp [hs]
      simp only [applyRefactorOnText, hpo, hpn, h1, h2]

theorem claim1_witness :
    (∀ s ∈ residualOldForms
        (applyRefactorOnText (str "local A = game:GetService(\"S\")\nrequire(A.M)")
          (str "game:GetService(\"S\").M") (str "game:GetService(\"S\").N"))
        (str "game:GetService(\"S\").M") (str "game:GetService(\"S\").N"),
      occursIn s (applyRefactorOnText (str "local A = game:GetService(\"S\")\nrequire(A.M)")
        (str "game:GetService(\"S\").M") (str "game:GetService(\"S\").N")) = false)
    ∧ applyRefactorOnText
        (applyRefactorOnText (str "local A = game:GetService(\"S\")\nrequire(A.M)")
          (str "game:GetService(\"S\").M") (str "game:GetService(\"S\").N"))
        (str "game:GetService(\"S\").M") (str "game:GetService(\"S\").N")
      = applyRefactorOnText (str "local A = game:GetService(\"S\")\nrequire(A.M)")
        (str "game:GetService(\"S\").M") (str "game:GetService(\"S\").N") :=
  ⟨by decide, claim1_second_pass_noop _ _ _ (by decide)⟩

/-! ## Claim C2: the primary replacement policy -/

/-- Claim C2: with both paths in the anchor grammar, the primary pass
replaces every occurrence of the alias-qualified old form when it is
present — keeping the old alias when it coincides with the new anchor's
alias, adopting the distinct new alias otherwise, and inlining the
fully-qualified new anchor when no new-anchor alias exists (the three-way
policy of `claimedReplacement`) — and applies the same policy to the
fully-qualified old path only when the alias-qualified form is absent.
Both cases are whole-string `replaceAll` substitutions. -/
theorem claim2_replacement_policy
    (text old new oldName oldSuf newName newSuf : List Char)
    (hpo : parseServicePath old = some (oldName, oldSuf))
    (hpn : parseServicePath new = some (newName, newSuf)) :
    (∀ v, findVariable oldName text = some v →
      occursIn (v ++ oldSuf) text = true →
      primaryRewrite text old oldName oldSuf newName newSuf =
        replaceAll (v ++ oldSuf)
          (claimedReplacement (findVariable newName text) newName newSuf) text)
    ∧ ((∀ v, findVariable oldName text = some v →
        occursIn (v ++ oldSuf) text = false) →
      occursIn old text = true →
      primaryRewrite text old oldName oldSuf newName newSuf =
        replaceAll old
          (claimedReplacement (findVariable newName text) newName newSuf) text) := by
  constructor
  · intro v hv hocc
    unfold primaryRewrite claimedReplacement
    cases hw : findVariable newName text with
    | none => simp [hv, hw, hocc]
    | some w =>
      by_cases hvw : w = v
      · subst hvw; simp [hv, hw, hocc]
      · have : ¬ (some w = some v) := by simpa using hvw
        simp [hv, hw, hocc, this]
  · intro hA hocc
    unfold primaryRewrite claimedReplacement
    cases hv : findVariable oldName text with
    | none =>
      cases hw : findVariable newName text with
      | none => simp [hw, hocc]
      | some w => simp [hw, hocc]
    | some v =>
      have habs := hA v hv
      cases hw : findVariable newName text with
      | none => simp [hv, hw, hocc, habs]
      | some w =>
        by_cases hvw : w = v
        · subst hvw; simp [hv, hw, hocc, habs]
        · have : ¬ (some w = some v) := by simpa using hvw
          simp [hv, hw, hocc, habs, this]

theorem claim2_witness :
    primaryRewrite
        (str "local A = game:GetService(\"S\")\nlocal B = game:GetService(\"T\")\nuse(A.M)")
        (str "game:GetService(\"S\").M") (str "S") (str ".M") (str "T") (str ".N")
      = replaceAll (str "A" ++ str ".M")
          (claimedReplacement
            (findVariable (str "T")
              (str "local A = game:GetService(\"S\")\nlocal B = game:GetService(\"T\")\nuse(A.M)"))
            (str "T") (str ".N"))
          (str "local A = game:GetService(\"S\")\nlocal B = game:GetService(\"T\")\nuse(A.M)") :=
  (claim2_replacement_policy
      (str "local A = game:GetService(\"S\")\nlocal B = game:GetService(\"T\")\nuse(A.M)")
      (str "game:GetService(\"S\").M") (str "game:GetService(\"T\").N")
      (str "S") (str ".M") (str "T") (str ".N") (by decide) (by decide)).1
    (str "A") (by decide) (by decide)

theorem isPrefixOf_append_self (a b : List Char) : a.isPrefixOf (a ++ b) = true := by
  simp [List.isPrefixOf_iff_prefix]

theorem stripLit_append (a b : List Char) : stripLit a (a ++ b) = some b := by
  simp [stripLit, isPrefixOf_append_self, List.drop_left]

theorem identStart_not_space {c : Char} (h : isIdentStartB c = true) : jsSpaceB c = false := by
  simp only [isIdentStartB, Bool.or_eq_true, Bool.and_eq_true, decide_eq_true_eq] at h
  simp only [jsSpaceB, Bool.or_eq_false_iff, decide_eq_false_iff_not]
  omega

theorem matchDecl_decl (a r : List Char) {v : List Char} (hv : validIdent v = true) :
    matchDecl a (declLocal v a ++ r) = some v := by
  obtain ⟨c, cs, rfl⟩ : ∃ c cs, v = c :: cs := by
    cases v with
    | nil => simp [validIdent] at hv
    | cons c cs => exact ⟨c, cs, rfl⟩
  have hv' := hv
  simp only [validIdent, Bool.and_eq_true, List.all_eq_true] at hv'
  have hstart : isIdentStartB c = true := hv'.1
  have hall : ∀ x ∈ c :: cs, isIdentCharB x = true := hv'.2
  have hnospace : jsSpaceB c = false := identStart_not_space hstart
  have e1 : declLocal (c :: cs) a ++ r
      = str "local" ++ (' ' :: ((c :: cs) ++ (' ' :: '=' :: ' ' :: (serviceLit a ++ r)))) := by
    have hA : str "local " = str "local" ++ [' '] := rfl
    have hB : str " = " = [' '] ++ ['='] ++ [' '] := rfl
    rw [declLocal, hA, hB]
    simp [List.append_assoc]
  have e2 : stripLit (str "local") (declLocal (c :: cs) a ++ r)
      = some (' ' :: ((c :: cs) ++ (' ' :: '=' :: ' ' :: (serviceLit a ++ r)))) := by
    rw [e1, stripLit_append]
  have e3 : ∀ z : List Char, serviceLit a ++ z = 'g' :: (str "ame:GetService(\"" ++ (a ++ (str "\")" ++ z))) := by
    intro z
    have hg : str "game:GetService(\"" = 'g' :: str "ame:GetService(\"" := rfl
    rw [serviceLit, hg]
    simp [List.append_assoc]
  have hc : isIdentCharB c = true := hall c (List.mem_cons_self c cs)
  have hcs : ∀ x ∈ cs, isIdentCharB x = true := fun x hx => hall x (List.mem_cons_of_mem c hx)
  have hsp : jsSpaceB ' ' = true := by decide
  have heqs : jsSpaceB '=' = false := by decide
  have hgs : jsSpaceB 'g' = false := by decide
  have hics : isIdentCharB ' ' = false := by decide
  simp only [matchDecl, e2]
  simp [List.takeWhile_cons, List.dropWhile_cons, hnospace, hstart, hsp, heqs, hgs, hics,
    List.takeWhile_append_of_pos hcs, List.dropWhile_append_of_pos hcs, hc,
    List.isEmpty_cons, isPrefixOf_append_self, List.prefix_append, e3]
  rw [← e3 r]
  exact List.prefix_append _ _

theorem findVariable_decl (a r : List Char) {v : List Char} (hv : validIdent v = true) :
    findVariable a (declLocal v a ++ r) = some v := by
  have e : declLocal v a ++ r
      = 'l' :: (str "ocal " ++ (v ++ (str " = " ++ (serviceLit a ++ r)))) := by
    have hA : str "local " = 'l' :: str "ocal " := rfl
    rw [declLocal, hA]
    simp [List.append_assoc]
  rw [e]
  simp only [findVariable]
  rw [← e, matchDecl_decl a r hv]

/-- Claim C10: when a file declares several variables bound to the same
service anchor, the primary rewriter uses only the textually first such
declaration — the regex search returns the first match, for the old-anchor
and the new-anchor lookups alike — so a later declaration (`v2` below,
arbitrary) is never chosen as the replacement alias. -/
theorem claim10_first_declaration_wins (anchor v1 v2 mid post : List Char)
    (hv1 : validIdent v1 = true) :
    findVariable anchor (declLocal v1 anchor ++ (mid ++ (declLocal v2 anchor ++ post))) = some v1
    ∧ ∀ old oldSuf newSuf : List Char,
      occursIn (v1 ++ oldSuf)
          (declLocal v1 anchor ++ (mid ++ (declLocal v2 anchor ++ post))) = true →
      primaryRewrite (declLocal v1 anchor ++ (mid ++ (declLocal v2 anchor ++ post)))
          old anchor oldSuf anchor newSuf
        = replaceAll (v1 ++ oldSuf) (v1 ++ newSuf)
            (declLocal v1 anchor ++ (mid ++ (declLocal v2 anchor ++ post))) := by
  have hf : findVariable anchor
      (declLocal v1 anchor ++ (mid ++ (declLocal v2 anchor ++ post))) = some v1 :=
    findVariable_decl _ _ hv1
  refine ⟨hf, fun old oldSuf newSuf hocc => ?_⟩
  unfold primaryRewrite
  simp [hf, hocc]

theorem claim10_witness :
    primaryRewrite
        (declLocal (str "A") (str "S") ++ (str "\n" ++ (declLocal (str "B") (str "S")
          ++ str "\nuse(A.M)")))
        (str "game:GetService(\"S\").M") (str "S") (str ".M") (str "S") (str ".N")
      = replaceAll (str "A" ++ str ".M") (str "A" ++ str ".N")
          (declLocal (str "A") (str "S") ++ (str "\n" ++ (declLocal (str "B") (str "S")
            ++ str "\nuse(A.M)"))) :=
  (claim10_first_declaration_wins (str "S") (str "A") (str "B") (str "\n")
      (str "\nuse(A.M)") (by decide)).2
    (str "game:GetService(\"S\").M") (str ".M") (str ".N") (by decide)

theorem foldl_congr_mem {α β : Type} (f g : β → α → β) :
    ∀ (l : List α) (acc : β), (∀ x ∈ l, ∀ a, f a x = g a x) →
      l.foldl f acc = l.foldl g acc := by
  intro l
  induction l with
  | nil => intro acc _; rfl
  | cons x xs ih =>
    intro acc h
    simp only [List.foldl_cons]
    rw [h x (List.mem_cons_self x xs)]
    exact ih _ (fun y hy a => h y (List.mem_cons_of_mem x hy) a)

theorem insertDesc_cons_le {x z : LongestVariable} {zs : List LongestVariable}
    (hc : x.longestSnippetCount ≤ z.longestSnippetCount) :
    insertDesc x (z :: zs) = z :: insertDesc x zs := by
  simp [insertDesc, hc]

theorem insertDesc_cons_gt {x z : LongestVariable} {zs : List LongestVariable}
    (hc : ¬ x.longestSnippetCount ≤ z.longestSnippetCount) :
    insertDesc x (z :: zs) = x :: z :: zs := by
  simp [insertDesc, hc]

theorem mem_insertDesc {x y : LongestVariable} :
    ∀ {l : List LongestVariable}, y ∈ insertDesc x l → y = x ∨ y ∈ l := by
  intro l
  induction l with
  | nil =>
    intro h
    simp [insertDesc] at h
    exact Or.inl h
  | cons z zs ih =>
    intro h
    by_cases hc : x.longestSnippetCount ≤ z.longestSnippetCount
    · rw [insertDesc_cons_le hc, List.mem_cons] at h
      rcases h with h | h
      · exact Or.inr (by simp [h])
      · rcases ih h with h | h
        · exact Or.inl h
        · exact Or.inr (List.mem_cons_of_mem _ h)
    · rw [insertDesc_cons_gt hc, List.mem_cons] at h
      rcases h with h | h
      · exact Or.inl h
      · exact Or.inr h

theorem insertDesc_pairwise {x : LongestVariable} :
    ∀ {l : List LongestVariable},
      l.Pairwise (fun a b => b.longestSnippetCount ≤ a.longestSnippetCount) →
      (insertDesc x l).Pairwise
        (fun a b => b.longestSnippetCount ≤ a.longestSnippetCount) := by
  intro l
  induction l with
  | nil => intro _; simp [insertDesc]
  | cons z zs ih =>
    intro hp
    rw [List.pairwise_cons] at hp
    obtain ⟨hz, hzs⟩ := hp
    by_cases hc : x.longestSnippetCount ≤ z.longestSnippetCount
    · rw [insertDesc_cons_le hc, List.pairwise_cons]
      refine ⟨fun y hy => ?_, ih hzs⟩
      rcases mem_insertDesc hy with rfl | hy
      · exact hc
      · exact hz y hy
    · rw [insertDesc_cons_gt hc, List.pairwise_cons]
      refine ⟨fun y hy => ?_, List.pairwise_cons.mpr ⟨hz, hzs⟩⟩
      rcases List.mem_cons.mp hy with rfl | hy
      · omega
      · have := hz y hy
        omega

theorem sortDesc_pairwise (l : List LongestVariable) :
    (sortDesc l).Pairwise (fun a b => b.longestSnippetCount ≤ a.longestSnippetCount) := by
  unfold sortDesc
  suffices h : ∀ acc : List LongestVariable,
      acc.Pairwise (fun a b => b.longestSnippetCount ≤ a.longestSnippetCount) →
      (l.foldl (fun acc x => insertDesc x acc) acc).Pairwise
        (fun a b => b.longestSnippetCount ≤ a.longestSnippetCount) by
    exact h [] (by simp)
  induction l with
  | nil => intro acc hacc; exact hacc
  | cons x xs ih =>
    intro acc hacc
    simp only [List.foldl_cons]
    exact ih _ (insertDesc_pairwise hacc)

theorem nestedStep_eq_spec {newSegs oldSegs : List (List Char)}
    {entry : List Char × List Char}
    (h : (segScan (splitSep '.' entry.2) oldSegs).2.isSome)
    (acc : LongestVariable × List LongestVariable) :
    nestedStep newSegs oldSegs acc entry = nestedStepSpec newSegs oldSegs acc entry := by
  obtain ⟨s, hs⟩ := Option.isSome_iff_exists.mp h
  unfold nestedStep nestedStepSpec
  simp [hs]

/-- Claim C3 (amended): the nested pass is a no-op when the file declares no
aliases; the old-path candidates are processed in descending order of their
common-prefix count; and the pass behaves exactly as the spec describes —
each candidate's literal form `alias + "." + oldSuffix` replaced everywhere
by the best-new-form literal — PROVIDED no alias's resolved path matches
every old-path segment.  (When one does, the source's shared mutable
`suffix` variable leaks that alias's new-path tail into its old-path
candidate, see `claim3_counterexample`.) -/
theorem claim3_nested_pass (text old new : List Char) :
    (parseVariablesToAbsoluteMap text = [] → applyNestedRefactoring text old new = text)
    ∧ (sortDesc (nestedScan text old new).2).Pairwise
        (fun a b => b.longestSnippetCount ≤ a.longestSnippetCount)
    ∧ ((∀ pair ∈ parseVariablesToAbsoluteMap text,
          (segScan (splitSep '.' pair.2) (splitSep '.' old)).2.isSome) →
        applyNestedRefactoring text old new = applyNestedRefactoringSpec text old new) := by
  refine ⟨fun h => ?_, sortDesc_pairwise _, fun h => ?_⟩
  · simp [applyNestedRefactoring, h]
  · by_cases he : (parseVariablesToAbsoluteMap text).isEmpty = true
    · simp [applyNestedRefactoring, applyNestedRefactoringSpec, he]
    · have hscan : nestedScan text old new
          = (parseVariablesToAbsoluteMap text).foldl
              (nestedStepSpec (splitSep '.' new) (splitSep '.' old)) (⟨[], 0, new⟩, []) := by
        unfold nestedScan
        exact foldl_congr_mem _ _ _ _ (fun x hx a => nestedStep_eq_spec (h x hx) a)
      simp only [applyNestedRefactoring, applyNestedRefactoringSpec, he,
        Bool.false_eq_true, if_false, hscan]

/-- Claim C3 counterexample: alias `Q` resolves exactly to the old path, so
the old-path comparison loop never breaks and the candidate keeps the
new-path tail `B.C` leaked from the preceding loop; the source searches for
`Q.B.C` (and changes nothing), while the claim's described algorithm would
search for the bare `Q` and rewrite it everywhere. -/
theorem claim3_counterexample :
    applyNestedRefactoring
        (str "local P = game:GetService(\"S\").B\nlocal Q = game:GetService(\"S\").A\nprint(Q)")
        (str "game:GetService(\"S\").A") (str "game:GetService(\"S\").B.C")
      ≠ applyNestedRefactoringSpec
        (str "local P = game:GetService(\"S\").B\nlocal Q = game:GetService(\"S\").A\nprint(Q)")
        (str "game:GetService(\"S\").A") (str "game:GetService(\"S\").B.C") := by
  decide

theorem claim3_witness :
    applyNestedRefactoring (str "local A = game:GetService(\"S\")\nrequire(A.M)")
        (str "game:GetService(\"S\").M") (str "game:GetService(\"S\").N")
      = applyNestedRefactoringSpec (str "local A = game:GetService(\"S\")\nrequire(A.M)")
        (str "game:GetService(\"S\").M") (str "game:GetService(\"S\").N") :=
  (claim3_nested_pass _ _ _).2.2 (by decide)

/-- Claim C9: any module name beginning with the letters `init` in any
letter case — including names such as `Initializer.lua` that are not init
files — has its module-name segment omitted exactly as a true init file:
the file resolves to its containing directory's logical path, so two such
files in the same directory resolve identically. -/
theorem claim9_init_prefix_overreach (p q : List Char) (t : Option PTree)
    (hp : isInitName (extractModuleName (basenameP p)) = true) :
    convertToRobloxPath p t = convertBase (dirnameP p) t
    ∧ (dirnameP q = dirnameP p →
        isInitName (extractModuleName (basenameP q)) = true →
        convertToRobloxPath q t = convertToRobloxPath p t) := by
  constructor
  · simp [convertToRobloxPath, appendModule, hp]
  · intro hd hq
    simp [convertToRobloxPath, appendModule, hp, hq, hd]

theorem claim9_witness :
    convertToRobloxPath (str "src/SSS/Initializer.lua") none
      = convertToRobloxPath (str "src/SSS/init.lua") none
    ∧ convertToRobloxPath (str "src/SSS/Initializer.lua") none = serviceLit (str "SSS") :=
  ⟨(claim9_init_prefix_overreach (str "src/SSS/init.lua") (str "src/SSS/Initializer.lua")
      none (by decide)).2 (by decide) (by decide),
    by decide⟩

theorem stripLit_inv {a s r : List Char} (h : stripLit a s = some r) : s = a ++ r := by
  unfold stripLit at h
  by_cases hpre : a.isPrefixOf s
  · rw [if_pos hpre] at h
    obtain ⟨t, rfl⟩ := (List.isPrefixOf_iff_prefix.mp hpre)
    rw [List.drop_left] at h
    rw [Option.some_inj.mp h]
  · rw [if_neg hpre] at h
    cases h

theorem parse_build {name suffix : List Char} (hn : name ≠ [])
    (hq : ∀ c ∈ name, c ≠ '"') (hs : ∀ c ∈ suffix, isLineTermB c = false) :
    parseServicePath (serviceLit name ++ suffix) = some (name, suffix) := by
  have e : serviceLit name ++ suffix
      = str "game:GetService(\"" ++ (name ++ ('"' :: ')' :: suffix)) := by
    have hB : str "\")" = '"' :: ')' :: ([] : List Char) := rfl
    rw [serviceLit, hB]
    simp [List.append_assoc]
  have hq' : ∀ c ∈ name, (fun c => decide (c ≠ '"')) c = true := by
    intro c hc
    simpa using hq c hc
  unfold parseServicePath
  rw [e, stripLit_append]
  simp only [List.takeWhile_append_of_pos hq', List.dropWhile_append_of_pos hq',
    List.takeWhile_cons, List.dropWhile_cons]
  simp [hn, List.all_eq_true]
  exact hs

theorem parse_shape {p n s : List Char} (h : parseServicePath p = some (n, s)) :
    p = serviceLit n ++ s ∧ n ≠ [] ∧ (∀ c ∈ n, c ≠ '"') ∧
      ∀ c ∈ s, isLineTermB c = false := by
  unfold parseServicePath at h
  cases hst : stripLit (str "game:GetService(\"") p with
  | none => rw [hst] at h; cases h
  | some r =>
    rw [hst] at h
    have hp : p = str "game:GetService(\"" ++ r := stripLit_inv hst
    simp only at h
    split at h
    case _ c1 suffix heq =>
      split at h
      · cases h
      · rename_i hne
        split at h
        case _ hall =>
          have hns := Option.some_inj.mp h
          have hn2 : r.takeWhile (fun c => decide (c ≠ '"')) = n := congrArg Prod.fst hns
          have hs2 : suffix = s := congrArg Prod.snd hns
          subst hs2
          subst hn2
          have hr : r = List.takeWhile (fun c => decide (c ≠ '"')) r ++ ('"' :: ')' :: suffix) := by
            conv_lhs => rw [← List.takeWhile_append_dropWhile (fun c => decide (c ≠ '"')) r]
            rw [heq]
          refine ⟨?_, ?_, ?_, ?_⟩
          · rw [hp]
            conv_lhs => rw [hr]
            have hB : str "\")" = '"' :: ')' :: ([] : List Char) := rfl
            rw [serviceLit, hB]
            simp [List.append_assoc]
          · intro h0
            rw [h0] at hne
            exact hne rfl
          · intro c hc
            have := List.mem_takeWhile_imp hc
            simpa using this
          · intro c hc
            rw [List.all_eq_true] at hall
            simpa using hall c hc
        · cases h
    case _ heq2 => cases h

theorem mem_of_dropWhile {p : Char → Bool} :
    ∀ {l : List Char} {c : Char}, c ∈ l.dropWhile p → c ∈ l := by
  intro l
  induction l with
  | nil => intro c h; exact h
  | cons x xs ih =>
    intro c h
    rw [List.dropWhile_cons] at h
    by_cases hx : p x = true
    · rw [if_pos hx] at h
      exact List.mem_cons_of_mem _ (ih h)
    · rw [if_neg hx] at h
      exact h

theorem mem_of_takeWhile {p : Char → Bool} {l : List Char} {c : Char}
    (h : c ∈ l.takeWhile p) : c ∈ l := by
  have : l.takeWhile p <+: l := List.takeWhile_prefix p
  exact this.subset h

theorem trimJs_subset {l : List Char} {c : Char} (h : c ∈ trimJs l) : c ∈ l := by
  unfold trimJs at h
  rw [List.mem_reverse] at h
  have h2 := mem_of_dropWhile h
  rw [List.mem_reverse] at h2
  exact mem_of_dropWhile h2

theorem takeBefore_subset {pat : List Char} :
    ∀ {l : List Char} {c : Char}, c ∈ takeBefore pat l → c ∈ l := by
  intro l
  induction l with
  | nil => intro c h; exact h
  | cons x xs ih =>
    intro c h
    unfold takeBefore at h
    by_cases hx : pat.isPrefixOf (x :: xs) = true
    · rw [if_pos hx] at h
      cases h
    · rw [if_neg hx] at h
      rcases List.mem_cons.mp h with rfl | h
      · exact List.mem_cons_self _ _
      · exact List.mem_cons_of_mem _ (ih h)

theorem cleanupValue_subset {raw : List Char} {c : Char}
    (h : c ∈ cleanupValue raw) : c ∈ raw := by
  unfold cleanupValue at h
  set r1 := if occursIn (str "--") raw then takeBefore (str "--") raw else raw with hr1
  have hsub1 : ∀ x, x ∈ r1 → x ∈ raw := by
    intro x hx
    rw [hr1] at hx
    by_cases ho : occursIn (str "--") raw = true
    · rw [if_pos ho] at hx
      exact takeBefore_subset hx
    · rw [if_neg ho] at hx
      exact hx
  by_cases hl : (trimJs r1).getLast? = some ';'
  · rw [if_pos hl] at h
    exact hsub1 _ (trimJs_subset (List.mem_of_mem_dropLast (trimJs_subset h)))
  · rw [if_neg hl] at h
    exact hsub1 _ (trimJs_subset h)

theorem splitSepAux_chars {sep : Char} :
    ∀ (s acc part : List Char), part ∈ splitSepAux sep s acc →
      ∀ c ∈ part, c ∈ s ∨ c ∈ acc := by
  intro s
  induction s with
  | nil =>
    intro acc part hp c hc
    simp [splitSepAux] at hp
    subst hp
    right
    rw [← List.mem_reverse]
    exact hc
  | cons x xs ih =>
    intro acc part hp c hc
    unfold splitSepAux at hp
    by_cases hx : x = sep
    · rw [if_pos hx] at hp
      rcases List.mem_cons.mp hp with rfl | hp
      · right
        rw [← List.mem_reverse]
        exact hc
      · rcases ih [] part hp c hc with h | h
        · exact Or.inl (List.mem_cons_of_mem _ h)
        · cases h
    · rw [if_neg hx] at hp
      rcases ih (x :: acc) part hp c hc with h | h
      · exact Or.inl (List.mem_cons_of_mem _ h)
      · rcases List.mem_cons.mp h with rfl | h
        · exact Or.inl (List.mem_cons_self _ _)
        · exact Or.inr h

theorem splitSep_chars {sep : Char} {s part : List Char} (hp : part ∈ splitSep sep s) :
    ∀ c ∈ part, c ∈ s := by
  intro c hc
  rcases splitSepAux_chars s [] part hp c hc with h | h
  · exact h
  · cases h

theorem joinSep_chars {sep : Char} {P : Char → Prop} (hsep : P sep) :
    ∀ (parts : List (List Char)), (∀ part ∈ parts, ∀ c ∈ part, P c) →
      ∀ c ∈ joinSep sep parts, P c := by
  intro parts
  induction parts with
  | nil => intro _ c hc; cases hc
  | cons x xs ih =>
    intro h c hc
    cases xs with
    | nil =>
      simp only [joinSep] at hc
      exact h x (List.mem_cons_self _ _) c hc
    | cons y ys =>
      simp only [joinSep] at hc
      rcases List.mem_append.mp hc with hc | hc
      · exact h x (List.mem_cons_self _ _) c hc
      · rcases List.mem_cons.mp hc with rfl | hc
        · exact hsep
        · exact ih (fun p hp => h p (List.mem_cons_of_mem _ hp)) c hc

theorem mem_setA {m : List (List Char × List Char)} {k v : List Char}
    {pair : List Char × List Char} :
    pair ∈ setA m k v → pair = (k, v) ∨ pair ∈ m := by
  induction m with
  | nil =>
    intro h
    simp [setA] at h
    exact Or.inl h
  | cons x xs ih =>
    intro h
    unfold setA at h
    by_cases hk : x.1 = k
    · rw [if_pos hk] at h
      rcases List.mem_cons.mp h with rfl | h
      · left
        rw [← hk]
      · exact Or.inr (List.mem_cons_of_mem _ h)
    · rw [if_neg hk] at h
      rcases List.mem_cons.mp h with rfl | h
      · exact Or.inr (List.mem_cons_self _ _)
      · rcases ih h with h | h
        · exact Or.inl h
        · exact Or.inr (List.mem_cons_of_mem _ h)

theorem lookupA_mem {k v : List Char} :
    ∀ {m : List (List Char × List Char)}, lookupA m k = some v → (k, v) ∈ m := by
  intro m
  induction m with
  | nil => intro h; cases h
  | cons x xs ih =>
    intro h
    unfold lookupA at h
    by_cases hk : x.1 = k
    · rw [if_pos hk] at h
      have : x = (k, v) := by
        obtain ⟨x1, x2⟩ := x
        simp at hk
        simp at h
        rw [hk, h]
      rw [← this]
      exact List.mem_cons_self _ _
    · rw [if_neg hk] at h
      exact List.mem_cons_of_mem _ (ih h)

theorem matchAssign_value_nonterm {line vn raw : List Char}
    (h : matchAssign line = some (vn, raw)) : ∀ c ∈ raw, isLineTermB c = false := by
  unfold matchAssign at h
  split at h <;> try cases h
  split at h <;> try cases h
  dsimp only at h
  split at h <;> try cases h
  split at h <;> try cases h
  split at h <;> try cases h
  split at h <;> try cases h
  intro c hc
  have := List.mem_takeWhile_imp hc
  simpa using this

theorem varStep_preserves {m : List (List Char × List Char)} {line : List Char}
    (hm : ∀ pair ∈ m, (parseServicePath pair.2).isSome = true) :
    ∀ pair ∈ varStep m line, (parseServicePath pair.2).isSome = true := by
  intro pair hp
  unfold varStep at hp
  cases ha : matchAssign line with
  | none => rw [ha] at hp; exact hm pair hp
  | some pr =>
    obtain ⟨vn, raw⟩ := pr
    rw [ha] at hp
    dsimp only at hp
    have hraw := matchAssign_value_nonterm ha
    by_cases hA : (parseServicePath (cleanupValue raw)).isSome = true
    · rw [if_pos hA] at hp
      rcases mem_setA hp with rfl | hp
      · exact hA
      · exact hm pair hp
    · rw [if_neg hA] at hp
      cases hsp : splitSep '.' (cleanupValue raw) with
      | nil => rw [hsp] at hp; exact hm pair hp
      | cons p0 restParts =>
        rw [hsp] at hp
        dsimp only at hp
        cases hlk : lookupA m p0 with
        | none => rw [hlk] at hp; exact hm pair hp
        | some base =>
          rw [hlk] at hp
          dsimp only at hp
          rcases mem_setA hp with rfl | hp
          · have hbase := hm (p0, base) (lookupA_mem hlk)
            obtain ⟨⟨n, s⟩, hps⟩ := Option.isSome_iff_exists.mp hbase
            obtain ⟨hshape0, hn, hqn, hsn⟩ := parse_shape hps
            have hshape : base = serviceLit n ++ s := hshape0
            show (parseServicePath (if (joinDots restParts).isEmpty then base
              else base ++ '.' :: joinDots restParts)).isSome = true
            by_cases hre : (joinDots restParts).isEmpty = true
            · rw [if_pos hre]
              exact hbase
            · rw [if_neg hre]
              have hnt : ∀ c ∈ joinDots restParts, isLineTermB c = false := by
                intro c hc
                refine joinSep_chars (P := fun c => isLineTermB c = false)
                  (by decide) restParts ?_ c hc
                intro part hpart c' hc'
                have hmem : part ∈ splitSep '.' (cleanupValue raw) := by
                  rw [hsp]
                  exact List.mem_cons_of_mem _ hpart
                exact hraw c' (cleanupValue_subset (splitSep_chars hmem c' hc'))
              rw [hshape]
              have hassoc : (serviceLit n ++ s) ++ ('.' :: joinDots restParts)
                  = serviceLit n ++ (s ++ '.' :: joinDots restParts) := by
                simp [List.append_assoc]
              rw [hassoc, parse_build hn hqn ?tail]
              · simp
              case tail =>
                intro c hc
                rcases List.mem_append.mp hc with hc | hc
                · exact hsn c hc
                · rcases List.mem_cons.mp hc with rfl | hc
                  · decide
                  · exact hnt c hc
          · exact hm pair hp

/-- Claim C7: every value stored by `parseVariablesToAbsoluteMap` is a
fully-resolved absolute logical path matching the anchor-access grammar —
it decomposes as the anchor literal plus a terminator-free suffix.  A value
enters the map either verbatim from a direct anchor expression (case A) or
by one substitution step through an already-inserted, already-absolute
binding (case B), so no stored value refers to an alias at all and the
index cannot contain a cycle. -/
theorem claim7_alias_values_wellformed (text : List Char) :
    ∀ pair ∈ parseVariablesToAbsoluteMap text, ∃ n s,
      parseServicePath pair.2 = some (n, s) ∧ pair.2 = serviceLit n ++ s := by
  have key : ∀ (lines : List (List Char)) (m : List (List Char × List Char)),
      (∀ pair ∈ m, (parseServicePath pair.2).isSome = true) →
      ∀ pair ∈ lines.foldl varStep m, (parseServicePath pair.2).isSome = true := by
    intro lines
    induction lines with
    | nil => intro m hm; exact hm
    | cons l ls ih => intro m hm; exact ih _ (varStep_preserves hm)
  intro pair hp
  have hsome := key (splitLines text) [] (by simp) pair hp
  obtain ⟨⟨n, s⟩, hps⟩ := Option.isSome_iff_exists.mp hsome
  exact ⟨n, s, hps, (parse_shape hps).1⟩

theorem claim7_witness :
    ∃ n s, parseServicePath (str "game:GetService(\"S\").x") = some (n, s)
      ∧ str "game:GetService(\"S\").x" = serviceLit n ++ s :=
  claim7_alias_values_wellformed
    (str "local A = game:GetService(\"S\")\nlocal B = A.x")
    (str "B", str "game:GetService(\"S\").x") (by decide)

theorem appendSeg_split (acc x : List Char) : appendSeg acc x = acc ++ appendSeg [] x := by
  unfold appendSeg
  dsimp only
  split <;> simp

theorem formatRobloxName_nonterm {x : List Char} (hx : ∀ c ∈ x, isLineTermB c = false) :
    ∀ c ∈ formatRobloxName x, isLineTermB c = false := by
  intro c hc
  unfold formatRobloxName at hc
  by_cases hsp : x.contains ' ' = true
  · rw [if_pos hsp] at hc
    rcases List.mem_cons.mp hc with rfl | hc
    · decide
    · rcases List.mem_cons.mp hc with rfl | hc
      · decide
      · rcases List.mem_append.mp hc with hc | hc
        · exact hx c hc
        · rcases List.mem_cons.mp hc with rfl | hc
          · decide
          · rcases List.mem_cons.mp hc with rfl | hc
            · decide
            · cases hc
  · rw [if_neg hsp] at hc
    exact hx c hc

theorem appendSeg_nonterm {x : List Char} (hx : ∀ c ∈ x, isLineTermB c = false) :
    ∀ c ∈ appendSeg [] x, isLineTermB c = false := by
  intro c hc
  unfold appendSeg at hc
  dsimp only at hc
  split at hc
  case _ tail heq =>
    exact formatRobloxName_nonterm hx c hc
  case _ =>
    rcases List.mem_cons.mp hc with rfl | hc
    · decide
    · exact formatRobloxName_nonterm hx c hc

theorem foldl_appendSeg_ex :
    ∀ (parts : List (List Char)) (acc : List Char),
      (∀ part ∈ parts, ∀ c ∈ part, isLineTermB c = false) →
      ∃ tail, parts.foldl appendSeg acc = acc ++ tail ∧
        ∀ c ∈ tail, isLineTermB c = false := by
  intro parts
  induction parts with
  | nil =>
    intro acc _
    exact ⟨[], by simp, by intro c hc; cases hc⟩
  | cons x xs ih =>
    intro acc h
    obtain ⟨tail, htail, hnt⟩ := ih (appendSeg acc x)
      (fun p hp => h p (List.mem_cons_of_mem _ hp))
    refine ⟨appendSeg [] x ++ tail, ?_, ?_⟩
    · rw [List.foldl_cons, htail, appendSeg_split, List.append_assoc]
    · intro c hc
      rcases List.mem_append.mp hc with hc | hc
      · exact appendSeg_nonterm (h x (List.mem_cons_self _ _)) c hc
      · exact hnt c hc

theorem dirnameP_chars {p : List Char} {c : Char} (hc : c ∈ dirnameP p) :
    c ∈ p ∨ c = '.' ∨ c = '/' := by
  unfold dirnameP at hc
  cases p with
  | nil =>
    rcases List.mem_cons.mp hc with rfl | hc
    · exact Or.inr (Or.inl rfl)
    · cases hc
  | cons p0 pr =>
    dsimp only at hc
    split at hc
    · split at hc
      · rcases List.mem_cons.mp hc with rfl | hc
        · exact Or.inr (Or.inr rfl)
        · cases hc
      · rcases List.mem_cons.mp hc with rfl | hc
        · exact Or.inr (Or.inl rfl)
        · cases hc
    case _ x t heq =>
      split at hc
      · rcases List.mem_cons.mp hc with rfl | hc
        · exact Or.inr (Or.inr rfl)
        · rcases List.mem_cons.mp hc with rfl | hc
          · exact Or.inr (Or.inr rfl)
          · cases hc
      · rcases List.mem_cons.mp hc with rfl | hc
        · exact Or.inl (List.mem_cons_self _ _)
        · left
          rw [List.mem_reverse] at hc
          have h1 : c ∈ x :: t := List.mem_cons_of_mem _ hc
          rw [← heq] at h1
          have h2 := mem_of_dropWhile (mem_of_dropWhile h1)
          have h3 := List.take_subset _ _ h2
          rw [List.mem_reverse] at h3
          exact h3

theorem basenameP_chars {p : List Char} {c : Char} (hc : c ∈ basenameP p) : c ∈ p := by
  unfold basenameP at hc
  rw [List.mem_reverse] at hc
  have h1 := mem_of_takeWhile hc
  have h2 := mem_of_dropWhile h1
  rw [List.mem_reverse] at h2
  exact h2

theorem splitLast_chars {c0 : Char} {m b a : List Char}
    (h : splitLast c0 m = some (b, a)) :
    (∀ c ∈ b, c ∈ m) ∧ ∀ c ∈ a, c ∈ m := by
  unfold splitLast at h
  dsimp only at h
  split at h
  · cases h
  case _ x t heq =>
    have hb : b = t.reverse := (congrArg Prod.fst (Option.some_inj.mp h)).symm
    have ha : a = (m.reverse.takeWhile (fun y => y ≠ c0)).reverse :=
      (congrArg Prod.snd (Option.some_inj.mp h)).symm
    constructor
    · intro c hc
      rw [hb, List.mem_reverse] at hc
      have h1 : c ∈ x :: t := List.mem_cons_of_mem _ hc
      rw [← heq] at h1
      have h2 := mem_of_dropWhile h1
      rw [List.mem_reverse] at h2
      exact h2
    · intro c hc
      rw [ha, List.mem_reverse] at hc
      have h1 := mem_of_takeWhile hc
      rw [List.mem_reverse] at h1
      exact h1

theorem extractModuleName_chars {f : List Char} {c : Char}
    (hc : c ∈ extractModuleName f) : c ∈ f := by
  unfold extractModuleName at hc
  split at hc
  · exact hc
  case _ before after heq =>
    split at hc
    · split at hc
      · exact (splitLast_chars heq).1 c hc
      case _ b2 a2 heq2 =>
        split at hc
        · exact (splitLast_chars heq).1 c ((splitLast_chars heq2).1 c hc)
        · exact (splitLast_chars heq).1 c hc
    · exact hc

theorem shiftSrc_mem {l : List (List Char)} {x : List Char} (h : x ∈ shiftSrc l) :
    x ∈ l := by
  cases l with
  | nil => exact h
  | cons y ys =>
    unfold shiftSrc at h
    dsimp only at h
    by_cases hy : y = str "src"
    · rw [if_pos hy] at h
      exact List.mem_cons_of_mem _ h
    · rw [if_neg hy] at h
      exact h

/-- Claim C4 (amended): for a non-empty relative path containing no
double-quote and no line-terminator characters, resolved without a
hierarchy tree, whose directory part (after dropping a leading `src`
segment) contributes at least one segment, `convertToRobloxPath` returns a
LogicalPath that is well-formed in the anchor grammar with a non-empty
anchor.  (The unrestricted claim fails: a file directly at the project
root yields the degenerate `game.Foo`, which has no anchor at all.) -/
theorem claim4_wellformed (p : List Char) (hne : p ≠ [])
    (hclean : ∀ c ∈ p, c ≠ '"' ∧ isLineTermB c = false)
    (hdirs : shiftSrc (splitParts (dirnameP p)) ≠ []) :
    ∃ n s, parseServicePath (convertToRobloxPath p none) = some (n, s) ∧ n ≠ [] := by
  have hdirchars : ∀ c ∈ dirnameP p, c ≠ '"' ∧ isLineTermB c = false := by
    intro c hc
    rcases dirnameP_chars hc with h | rfl | rfl
    · exact hclean c h
    · exact ⟨by decide, by decide⟩
    · exact ⟨by decide, by decide⟩
  obtain ⟨d, rest, hd⟩ : ∃ d rest, shiftSrc (splitParts (dirnameP p)) = d :: rest := by
    cases hcase : shiftSrc (splitParts (dirnameP p)) with
    | nil => exact absurd hcase hdirs
    | cons d rest => exact ⟨d, rest, rfl⟩
  have hdmem : d ∈ splitParts (dirnameP p) :=
    shiftSrc_mem (hd ▸ List.mem_cons_self d rest)
  have hdfil := List.mem_filter.mp hdmem
  have hdne : d ≠ [] := by
    have h2 := hdfil.2
    simp at h2
    exact h2.1
  have hdchars : ∀ c ∈ d, c ≠ '"' :=
    fun c hc => (hdirchars c (splitSep_chars hdfil.1 c hc)).1
  have hdnt : ∀ c ∈ d, isLineTermB c = false :=
    fun c hc => (hdirchars c (splitSep_chars hdfil.1 c hc)).2
  have hmnt : ∀ c ∈ extractModuleName (basenameP p), isLineTermB c = false :=
    fun c hc => (hclean c (basenameP_chars (extractModuleName_chars hc))).2
  have hrest : ∀ part ∈ rest, ∀ c ∈ part, isLineTermB c = false := by
    intro part hpart c hc
    have hp2 : part ∈ splitParts (dirnameP p) :=
      shiftSrc_mem (hd ▸ List.mem_cons_of_mem d hpart)
    exact (hdirchars c (splitSep_chars (List.mem_filter.mp hp2).1 c hc)).2
  obtain ⟨tail, htail, htnt⟩ := foldl_appendSeg_ex rest (serviceLit d) hrest
  have hbase : convertBase (dirnameP p) none = serviceLit d ++ tail := by
    unfold convertBase
    dsimp only
    rw [hd]
    unfold buildFromParts
    exact htail
  by_cases hinit : isInitName (extractModuleName (basenameP p)) = true
  · refine ⟨d, tail, ?_, hdne⟩
    unfold convertToRobloxPath
    rw [hbase]
    unfold appendModule
    rw [if_pos hinit]
    exact parse_build hdne hdchars htnt
  · refine ⟨d, tail ++ appendSeg [] (extractModuleName (basenameP p)), ?_, hdne⟩
    unfold convertToRobloxPath
    rw [hbase]
    unfold appendModule
    rw [if_neg hinit, appendSeg_split, List.append_assoc]
    refine parse_build hdne hdchars ?_
    intro c hc
    rcases List.mem_append.mp hc with hc | hc
    · exact htnt c hc
    · exact appendSeg_nonterm hmnt c hc

/-- Claim C4 counterexample: `Foo.lua` at the project root resolves to
`game.Foo`, which does not match the anchor-access grammar. -/
theorem claim4_counterexample :
    convertToRobloxPath (str "Foo.lua") none = str "game.Foo"
    ∧ parseServicePath (convertToRobloxPath (str "Foo.lua") none) = none :=
  ⟨by decide, by decide⟩

theorem claim4_witness :
    ∃ n s, parseServicePath
        (convertToRobloxPath (str "src/ServerScriptService/MyModule.lua") none)
      = some (n, s) ∧ n ≠ [] :=
  claim4_wellformed _ (by decide) (by decide) (by decide)
